import Mathlib

/-!
Shallow embedding of the randomized big-integer subsystem (`bigrand.rs` of
`num-bigint`), together with theorems checking the specification's claims.

Modelling conventions:
* The entropy source (`rand`'s `Rng`) is modelled by `Rng` below: a fixed
  infinite stream of 32-bit generation words plus a fixed infinite stream of
  booleans, together with read positions.  `Rng.fill len` models
  `rng.fill(&mut [u32])` on a buffer of length `len`; `Rng.flip` models
  `rng.random::<bool>()`.
* A `BigUint` is identified with its numeric value (a `Nat`); construction from
  a little-endian `u32` digit vector (`biguint_from_vec`) is the base-`2^32`
  value of the vector, which is exactly what normalisation preserves.  A
  `BigInt` is identified with an `Int`.
* The unbounded rejection-sampling loops of the source are given an explicit
  `fuel` parameter; `SR.spent` reports fuel exhaustion (the source would keep
  looping), `SR.fatal` reports a failed `assert!` (a Rust panic), `SR.ok`
  carries the produced value and the advanced entropy source.
-/

/-- Deterministic entropy source: streams of 32-bit words and of booleans,
with current read positions. -/
structure Rng where
  words : Nat → Nat
  bools : Nat → Bool
  wpos : Nat
  bpos : Nat

/-- Model of `rng.fill(data)` for a `&mut [u32]` buffer of length `len`:
returns the next `len` generation words (each reduced mod `2^32`) and the
advanced source. -/
def Rng.fill (g : Rng) (len : Nat) : List Nat × Rng :=
  ((List.range len).map fun i => g.words (g.wpos + i) % 2 ^ 32,
   { g with wpos := g.wpos + len })

/-- Model of `rng.random::<bool>()`. -/
def Rng.flip (g : Rng) : Bool × Rng :=
  (g.bools g.bpos, { g with bpos := g.bpos + 1 })

/-- Value of a little-endian list of 32-bit digits, read base `2^32`. -/
def valU32 (l : List Nat) : Nat :=
  l.foldr (fun d acc => d + 2 ^ 32 * acc) 0

/-- Value of a little-endian list of 64-bit digits, read base `2^64`. -/
def valU64 (l : List Nat) : Nat :=
  l.foldr (fun d acc => d + 2 ^ 64 * acc) 0

/-- `biguint_from_vec` (32-bit digit path): the canonical `BigUint` built from
a little-endian `u32` digit vector, identified with its numeric value. -/
def biguint_from_vec (l : List Nat) : Nat := valU32 l

/-- `biguint_from_vec` (64-bit digit path): the canonical `BigUint` built from
a little-endian `u64` digit vector, identified with its numeric value. -/
def biguint_from_vec64 (l : List Nat) : Nat := valU64 l

/-- Fuel-indexed binary length; the fuel is only there so the recursion is
structural, any `fuel ≥ n` computes the true bit length of `n`. -/
def bitLenAux : Nat → Nat → Nat
  | 0, _ => 0
  | fuel + 1, n => if n = 0 then 0 else bitLenAux fuel (n / 2) + 1

/-- `BigUint::bits()`: number of bits in the value, with `bits 0 = 0`. -/
def bits (n : Nat) : Nat := bitLenAux n n

/-- `random_bits(rng, data, rem)`: fill a `u32` buffer of length `len` from the
source, then if `rem > 0` right-shift the last word by `32 - rem`, clearing the
unwanted high bits. -/
def random_bits (g : Rng) (len rem : Nat) : List Nat × Rng :=
  let p := g.fill len
  if 0 < rem then
    (p.1.dropLast ++ [p.1.getLastD 0 >>> (32 - rem)], p.2)
  else
    p

/-- The `u32` digit buffer generated by `random_biguint` for `bit_size` bits:
`bit_size.div_rem(&32) = (digits, rem)`, buffer length `digits + (rem > 0)`. -/
def random_biguint_data (g : Rng) (bit_size : Nat) : List Nat × Rng :=
  let digits := bit_size / 32
  let rem := bit_size % 32
  let len := digits + if 0 < rem then 1 else 0
  random_bits g len rem

/-- `random_biguint` (32-bit digit path): generate the digit buffer and build a
`BigUint` from it. -/
def random_biguint (g : Rng) (bit_size : Nat) : Nat × Rng :=
  let p := random_biguint_data g bit_size
  (biguint_from_vec p.1, p.2)

/-- Reinterpret a little-endian `u32` word sequence as little-endian `u64`
words, pairing consecutive `u32` digits (low half first). -/
def pack64 : List Nat → List Nat
  | [] => []
  | [a] => [a]
  | a :: b :: rest => (a + 2 ^ 32 * b) :: pack64 rest

/-- `random_biguint` (64-bit digit path): allocate `div_ceil(bit_size, 64)`
zeroed native words, generate into the first `len` `u32` half-words of that
buffer, and build a `BigUint` from the resulting `u64` digit vector. -/
def random_biguint64 (g : Rng) (bit_size : Nat) : Nat × Rng :=
  let digits := bit_size / 32
  let rem := bit_size % 32
  let len := digits + if 0 < rem then 1 else 0
  let native_len := (bit_size + 63) / 64
  let p := random_bits g len rem
  (biguint_from_vec64 (pack64 (p.1 ++ List.replicate (2 * native_len - len) 0)), p.2)

/-- Result of a sampling operation whose source code can loop or `assert!`:
`ok` carries the value and advanced source, `fatal` is a failed assertion
(a Rust panic), `spent` means the rejection loop did not finish within the
fuel given to the model. -/
inductive SR (α : Type) where
  | ok : α → SR α
  | fatal : SR α
  | spent : SR α
deriving DecidableEq

/-- Map over the value of a successful sampling result. -/
def SR.map {α β : Type} (f : α → β) : SR α → SR β
  | .ok a => .ok (f a)
  | .fatal => .fatal
  | .spent => .spent

/-- The rejection loop of `random_biguint_below`: draw candidates of bit size
`nb` until one is strictly below `bound`. -/
def below_loop (bound nb : Nat) : Nat → Rng → SR (Nat × Rng)
  | 0, _ => .spent
  | fuel + 1, g =>
    let p := random_biguint g nb
    if p.1 < bound then .ok p else below_loop bound nb fuel p.2

/-- The `k`-th candidate (value and advanced source) drawn by the rejection
loop started at source state `g` with candidate bit size `nb`. -/
def below_candidate (g : Rng) (nb : Nat) : Nat → Nat × Rng
  | 0 => random_biguint g nb
  | k + 1 => below_candidate (random_biguint g nb).2 nb k

/-- `random_biguint_below`: assert the bound is non-zero, then rejection-sample
candidates of bit size `bits bound` until one is strictly below `bound`. -/
def random_biguint_below (fuel : Nat) (g : Rng) (bound : Nat) : SR (Nat × Rng) :=
  if bound = 0 then .fatal
  else below_loop bound (bits bound) fuel g

/-- `random_biguint_range`: assert `lbound < ubound`; if `lbound` is zero
delegate to `random_biguint_below ubound`, otherwise draw below
`ubound - lbound` and add `lbound`. -/
def random_biguint_range (fuel : Nat) (g : Rng) (lbound ubound : Nat) :
    SR (Nat × Rng) :=
  if lbound < ubound then
    if lbound = 0 then
      random_biguint_below fuel g ubound
    else
      SR.map (fun p => (lbound + p.1, p.2)) (random_biguint_below fuel g (ubound - lbound))
  else .fatal

/-- `random_bigint_range`: assert `lbound < ubound`; three cases, each reducing
to an unsigned bounded draw over a magnitude (`Int.natAbs` models
`BigInt::magnitude`) and a signed addition. -/
def random_bigint_range (fuel : Nat) (g : Rng) (lbound ubound : Int) :
    SR (Int × Rng) :=
  if lbound < ubound then
    if lbound = 0 then
      SR.map (fun p => ((p.1 : Int), p.2)) (random_biguint_below fuel g ubound.natAbs)
    else if ubound = 0 then
      SR.map (fun p => (lbound + (p.1 : Int), p.2)) (random_biguint_below fuel g lbound.natAbs)
    else
      SR.map (fun p => (lbound + (p.1 : Int), p.2))
        (random_biguint_below fuel g (ubound - lbound).natAbs)
  else .fatal

/-- One iteration of `random_bigint`'s loop body: draw a magnitude of the
requested bit size, then one coin flip; returns (magnitude, coin) and the
advanced source. -/
def bigint_draw (g : Rng) (bit_size : Nat) : (Nat × Bool) × Rng :=
  let p := random_biguint g bit_size
  let q := p.2.flip
  ((p.1, q.1), q.2)

/-- The `k`-th (magnitude, coin) pair drawn by `random_bigint`'s loop started
at source state `g`. -/
def bigint_iter (g : Rng) (bit_size : Nat) : Nat → (Nat × Bool) × Rng
  | 0 => bigint_draw g bit_size
  | k + 1 => bigint_iter (bigint_draw g bit_size).2 bit_size k

/-- `random_bigint`: draw a magnitude, then a sign.  A zero magnitude either
retries the whole draw (coin true) or finalises as zero (coin false); a
non-zero magnitude becomes positive (coin true) or negative (coin false). -/
def random_bigint : Nat → Rng → Nat → SR (Int × Rng)
  | 0, _, _ => .spent
  | fuel + 1, g, bit_size =>
    let p := random_biguint g bit_size
    let q := p.2.flip
    if p.1 = 0 then
      if q.1 then random_bigint fuel q.2 bit_size else .ok (0, q.2)
    else
      .ok (if q.1 then (p.1 : Int) else -(p.1 : Int), q.2)

/-- The typed error of `rand::distr::uniform::Error`. -/
inductive RandError where
  | emptyRange : RandError
  | nonFinite : RandError
deriving DecidableEq

/-- Back-end implementing `UniformSampler` for `BigUint`: cached lower bound
and exclusive span. -/
structure UniformBigUint where
  base : Nat
  len : Nat
deriving DecidableEq

/-- `UniformBigUint::new`: succeed with span `high - low` when `low < high`,
otherwise report an empty range. -/
def UniformBigUint.new (low high : Nat) : Except RandError UniformBigUint :=
  if low < high then
    .ok { len := high - low, base := low }
  else
    .error .emptyRange

/-- `UniformBigUint::new_inclusive`: delegate to `new(low, high + 1)` when
`low ≤ high`, otherwise report an empty range. -/
def UniformBigUint.new_inclusive (low high : Nat) : Except RandError UniformBigUint :=
  if low ≤ high then
    UniformBigUint.new low (high + 1)
  else
    .error .emptyRange

/-- `UniformBigUint::sample`: a bounded draw below the cached span, added to
the cached base. -/
def UniformBigUint.sample (s : UniformBigUint) (fuel : Nat) (g : Rng) :
    SR (Nat × Rng) :=
  SR.map (fun p => (s.base + p.1, p.2)) (random_biguint_below fuel g s.len)

/-- `UniformBigUint::sample_single`: `Ok(rng.random_biguint_range(low, high))`. -/
def UniformBigUint.sample_single (low high : Nat) (fuel : Nat) (g : Rng) :
    SR (Except RandError Nat × Rng) :=
  SR.map (fun p => (Except.ok p.1, p.2)) (random_biguint_range fuel g low high)

/-- Back-end implementing `UniformSampler` for `BigInt`: cached signed lower
bound and unsigned exclusive span. -/
structure UniformBigInt where
  base : Int
  len : Nat
deriving DecidableEq

/-- `UniformBigInt::new`: succeed when `low < high`, caching the magnitude of
`high - low` (`into_parts().1`) as the span. -/
def UniformBigInt.new (low high : Int) : Except RandError UniformBigInt :=
  if low < high then
    .ok { len := (high - low).natAbs, base := low }
  else
    .error .emptyRange

/-- `UniformBigInt::new_inclusive`: delegate to `new(low, high + 1)` when
`low ≤ high`, otherwise report an empty range. -/
def UniformBigInt.new_inclusive (low high : Int) : Except RandError UniformBigInt :=
  if low ≤ high then
    UniformBigInt.new low (high + 1)
  else
    .error .emptyRange

/-- `UniformBigInt::sample`: a bounded draw below the cached span, added to the
cached base. -/
def UniformBigInt.sample (s : UniformBigInt) (fuel : Nat) (g : Rng) :
    SR (Int × Rng) :=
  SR.map (fun p => (s.base + (p.1 : Int), p.2)) (random_biguint_below fuel g s.len)

/-- `UniformBigInt::sample_single`: `Ok(rng.random_bigint_range(low, high))`. -/
def UniformBigInt.sample_single (low high : Int) (fuel : Nat) (g : Rng) :
    SR (Except RandError Int × Rng) :=
  SR.map (fun p => (Except.ok p.1, p.2)) (random_bigint_range fuel g low high)

/-- A concrete entropy source (all-zero words, all-false coins) used to
instantiate theorems with hypotheses at concrete inputs. -/
def g0 : Rng :=
  { words := fun _ => 0, bools := fun _ => false, wpos := 0, bpos := 0 }

/-- A concrete entropy source whose word stream is the identity sequence. -/
def gId : Rng :=
  { words := fun i => i, bools := fun _ => true, wpos := 0, bpos := 0 }

/-- The state of `g0` after one generation word has been consumed. -/
def g1 : Rng :=
  { words := fun _ => 0, bools := fun _ => false, wpos := 1, bpos := 0 }

/-- The state of `g0` after one generation word and one coin flip. -/
def g11 : Rng :=
  { words := fun _ => 0, bools := fun _ => false, wpos := 1, bpos := 1 }

/-! Helper lemmas about digit values. -/

theorem valU32_nil : valU32 [] = 0 := rfl

theorem valU32_cons (d : Nat) (t : List Nat) :
    valU32 (d :: t) = d + 2 ^ 32 * valU32 t := rfl

theorem valU64_cons (d : Nat) (t : List Nat) :
    valU64 (d :: t) = d + 2 ^ 64 * valU64 t := rfl

theorem valU32_append (l₁ l₂ : List Nat) :
    valU32 (l₁ ++ l₂) = valU32 l₁ + 2 ^ (32 * l₁.length) * valU32 l₂ := by
  induction l₁ with
  | nil => simp [valU32]
  | cons d t ih =>
      simp only [List.cons_append, valU32_cons, ih, List.length_cons]
      ring

theorem valU32_replicate_zero (k : Nat) : valU32 (List.replicate k 0) = 0 := by
  induction k with
  | zero => rfl
  | succ k ih => simp [List.replicate_succ, valU32_cons, ih]

theorem valU32_lt (l : List Nat) (h : ∀ d ∈ l, d < 2 ^ 32) :
    valU32 l < 2 ^ (32 * l.length) := by
  induction l with
  | nil => simp [valU32]
  | cons d t ih =>
      have hd : d < 2 ^ 32 := h d (by simp)
      have ht : valU32 t < 2 ^ (32 * t.length) := ih fun x hx => h x (by simp [hx])
      have step : d + 2 ^ 32 * valU32 t < 2 ^ 32 * (valU32 t + 1) := by nlinarith
      calc valU32 (d :: t) = d + 2 ^ 32 * valU32 t := valU32_cons d t
        _ < 2 ^ 32 * (valU32 t + 1) := step
        _ ≤ 2 ^ 32 * 2 ^ (32 * t.length) := Nat.mul_le_mul_left _ ht
        _ = 2 ^ (32 * (t.length + 1)) := by rw [← pow_add]; ring_nf
        _ = 2 ^ (32 * (d :: t).length) := by simp

theorem pack64_val : ∀ l : List Nat, valU64 (pack64 l) = valU32 l
  | [] => rfl
  | [a] => by simp [pack64, valU64_cons, valU32_cons, valU64, valU32]
  | a :: b :: rest => by
      have ih := pack64_val rest
      simp only [pack64, valU64_cons, valU32_cons, ih]
      ring

/-! Helper lemmas about the entropy source and the bit generator. -/

theorem fill_length (g : Rng) (len : Nat) : (g.fill len).1.length = len := by
  simp [Rng.fill]

theorem fill_mem_lt (g : Rng) (len : Nat) :
    ∀ d ∈ (g.fill len).1, d < 2 ^ 32 := by
  intro d hd
  simp only [Rng.fill, List.mem_map] at hd
  obtain ⟨i, -, rfl⟩ := hd
  exact Nat.mod_lt _ (by positivity)

theorem mem_of_mem_dropLast {l : List Nat} {a : Nat} (h : a ∈ l.dropLast) : a ∈ l := by
  induction l with
  | nil => simp at h
  | cons d t ih =>
      cases t with
      | nil => simp at h
      | cons e u =>
          rcases List.mem_cons.mp h with h | h
          · simp [h]
          · exact List.mem_cons_of_mem _ (ih h)

theorem getLastD_mem {l : List Nat} (h : l ≠ []) : l.getLastD 0 ∈ l := by
  induction l with
  | nil => exact absurd rfl h
  | cons d t ih =>
      cases t with
      | nil => simp [List.getLastD]
      | cons e u =>
          have h2 := List.mem_cons_of_mem d (ih (by simp))
          simp only [List.getLastD] at h2 ⊢
          exact h2

theorem random_bits_val_lt_zero (g : Rng) (len : Nat) :
    valU32 (random_bits g len 0).1 < 2 ^ (32 * len) := by
  have h := valU32_lt (g.fill len).1 (fill_mem_lt g len)
  rw [fill_length] at h
  simpa [random_bits] using h

theorem random_bits_val_lt_pos (g : Rng) (len rem : Nat) (h0 : 0 < rem)
    (h32 : rem < 32) :
    valU32 (random_bits g (len + 1) rem).1 < 2 ^ (32 * len + rem) := by
  have hne : (g.fill (len + 1)).1 ≠ [] := by
    intro h
    have := fill_length g (len + 1)
    rw [h] at this
    simp at this
  have hlastmem : (g.fill (len + 1)).1.getLastD 0 ∈ (g.fill (len + 1)).1 :=
    getLastD_mem hne
  have hlast : (g.fill (len + 1)).1.getLastD 0 < 2 ^ 32 :=
    fill_mem_lt g (len + 1) _ hlastmem
  have hshift : (g.fill (len + 1)).1.getLastD 0 >>> (32 - rem) < 2 ^ rem := by
    rw [Nat.shiftRight_eq_div_pow]
    rw [Nat.div_lt_iff_lt_mul (by positivity)]
    calc (g.fill (len + 1)).1.getLastD 0 < 2 ^ 32 := hlast
      _ = 2 ^ rem * 2 ^ (32 - rem) := by rw [← pow_add]; congr 1; omega
  have hdroplen : (g.fill (len + 1)).1.dropLast.length = len := by
    rw [List.length_dropLast, fill_length]
    omega
  have hdropval : valU32 (g.fill (len + 1)).1.dropLast < 2 ^ (32 * len) := by
    have := valU32_lt (g.fill (len + 1)).1.dropLast
      (fun d hd => fill_mem_lt g (len + 1) d (mem_of_mem_dropLast hd))
    rwa [hdroplen] at this
  have hval : valU32 (random_bits g (len + 1) rem).1 =
      valU32 (g.fill (len + 1)).1.dropLast +
        2 ^ (32 * len) * ((g.fill (len + 1)).1.getLastD 0 >>> (32 - rem)) := by
    simp only [random_bits, if_pos h0]
    rw [valU32_append, hdroplen]
    simp [valU32_cons, valU32_nil]
  rw [hval]
  calc valU32 (g.fill (len + 1)).1.dropLast +
        2 ^ (32 * len) * ((g.fill (len + 1)).1.getLastD 0 >>> (32 - rem))
      < 2 ^ (32 * len) * ((g.fill (len + 1)).1.getLastD 0 >>> (32 - rem) + 1) := by
        nlinarith [hdropval]
    _ ≤ 2 ^ (32 * len) * 2 ^ rem := Nat.mul_le_mul_left _ hshift
    _ = 2 ^ (32 * len + rem) := by rw [← pow_add]

theorem random_biguint_lt (g : Rng) (n : Nat) : (random_biguint g n).1 < 2 ^ n := by
  simp only [random_biguint, random_biguint_data, biguint_from_vec]
  rcases Nat.eq_zero_or_pos (n % 32) with hrem | hrem
  · have hlen : n / 32 + (if 0 < n % 32 then 1 else 0) = n / 32 := by
      simp [hrem]
    rw [hlen, hrem]
    have h := random_bits_val_lt_zero g (n / 32)
    have he : 32 * (n / 32) = n := by omega
    rwa [he] at h
  · have hlen : n / 32 + (if 0 < n % 32 then 1 else 0) = n / 32 + 1 := by
      simp [hrem]
    rw [hlen]
    have h := random_bits_val_lt_pos g (n / 32) (n % 32) hrem (Nat.mod_lt _ (by norm_num))
    have he : 32 * (n / 32) + n % 32 = n := by omega
    rwa [he] at h

/-! Helper lemmas about the bit-length function. -/

theorem bitLenAux_le_iff :
    ∀ fuel n k : Nat, n ≤ fuel → (bitLenAux fuel n ≤ k ↔ n < 2 ^ k) := by
  intro fuel
  induction fuel with
  | zero =>
      intro n k hn
      have hn0 : n = 0 := Nat.le_zero.mp hn
      subst hn0
      simp only [bitLenAux]
      constructor
      · intro _; positivity
      · intro _; exact Nat.zero_le k
  | succ fuel ih =>
      intro n k hn
      by_cases h0 : n = 0
      · subst h0
        simp only [bitLenAux, if_pos rfl]
        constructor
        · intro _; positivity
        · intro _; exact Nat.zero_le k
      · simp only [bitLenAux, if_neg h0]
        cases k with
        | zero => simp only [pow_zero]; omega
        | succ k =>
            have hn2 : n / 2 ≤ fuel := by omega
            rw [Nat.succ_le_succ_iff, ih (n / 2) k hn2, pow_succ,
              Nat.div_lt_iff_lt_mul (by norm_num : 0 < 2)]

theorem bits_le_iff (v k : Nat) : bits v ≤ k ↔ v < 2 ^ k :=
  bitLenAux_le_iff v v k le_rfl

/-! Helper lemmas about sampling results and the rejection loops. -/

theorem SR.map_eq_ok {α β : Type} (f : α → β) (r : SR α) (b : β) :
    SR.map f r = .ok b ↔ ∃ a, r = .ok a ∧ b = f a := by
  cases r <;> simp [SR.map, eq_comm]

theorem SR.map_ne_fatal {α β : Type} (f : α → β) (r : SR α) (h : r ≠ .fatal) :
    SR.map f r ≠ .fatal := by
  cases r <;> simp_all [SR.map]

theorem below_loop_lt (bound nb : Nat) :
    ∀ fuel g n g', below_loop bound nb fuel g = .ok (n, g') → n < bound := by
  intro fuel
  induction fuel with
  | zero => intro g n g' h; simp [below_loop] at h
  | succ fuel ih =>
      intro g n g' h
      simp only [below_loop] at h
      split at h
      · rename_i hlt
        injection h with h2
        have hfst : (random_biguint g nb).1 = n := congrArg Prod.fst h2
        omega
      · exact ih _ n g' h

theorem below_loop_ne_fatal (bound nb : Nat) :
    ∀ fuel g, below_loop bound nb fuel g ≠ .fatal := by
  intro fuel
  induction fuel with
  | zero => intro g; simp [below_loop]
  | succ fuel ih =>
      intro g
      simp only [below_loop]
      split
      · simp
      · exact ih _

theorem below_loop_first (bound nb : Nat) :
    ∀ fuel g n g', below_loop bound nb fuel g = .ok (n, g') →
      ∃ k, k < fuel ∧ (∀ j, j < k → ¬ (below_candidate g nb j).1 < bound) ∧
        below_candidate g nb k = (n, g') := by
  intro fuel
  induction fuel with
  | zero => intro g n g' h; simp [below_loop] at h
  | succ fuel ih =>
      intro g n g' h
      simp only [below_loop] at h
      split at h
      · rename_i hlt
        injection h with h2
        exact ⟨0, Nat.succ_pos _, fun j hj => absurd hj (Nat.not_lt_zero j), h2⟩
      · rename_i hge
        obtain ⟨k, hk, hrej, hcand⟩ := ih _ n g' h
        refine ⟨k + 1, by omega, ?_, hcand⟩
        intro j hj
        cases j with
        | zero => exact hge
        | succ j => exact hrej j (by omega)

theorem below_lt {fuel : Nat} {g : Rng} {bound n : Nat} {g' : Rng}
    (h : random_biguint_below fuel g bound = .ok (n, g')) : n < bound := by
  rw [random_biguint_below] at h
  split at h
  · simp at h
  · exact below_loop_lt _ _ _ _ _ _ h

theorem below_ne_fatal {fuel : Nat} {g : Rng} {bound : Nat} (hb : bound ≠ 0) :
    random_biguint_below fuel g bound ≠ .fatal := by
  rw [random_biguint_below, if_neg hb]
  exact below_loop_ne_fatal _ _ _ _

/-! Helper lemmas about the signed composition loop. -/

theorem bigint_iter_zero (g : Rng) (bs : Nat) : bigint_iter g bs 0 = bigint_draw g bs := rfl

theorem bigint_iter_succ (g : Rng) (bs k : Nat) :
    bigint_iter g bs (k + 1) = bigint_iter (bigint_draw g bs).2 bs k := rfl

theorem bigint_iter_shape (bs : Nat) :
    ∀ k g, ∃ s, bigint_iter g bs k = bigint_draw s bs := by
  intro k
  induction k with
  | zero => intro g; exact ⟨g, rfl⟩
  | succ k ih => intro g; exact ih _

theorem bigint_iter_fst_lt (g : Rng) (bs k : Nat) :
    (bigint_iter g bs k).1.1 < 2 ^ bs := by
  obtain ⟨s, hs⟩ := bigint_iter_shape bs k g
  rw [hs]
  exact random_biguint_lt s bs

theorem random_bigint_loop (bs : Nat) :
    ∀ fuel g v g', random_bigint fuel g bs = .ok (v, g') →
      ∃ k, k < fuel ∧ (∀ j, j < k → (bigint_iter g bs j).1 = (0, true)) ∧
        ((bigint_iter g bs k).1.1 = 0 → (bigint_iter g bs k).1.2 = false ∧ v = 0) ∧
        ((bigint_iter g bs k).1.1 ≠ 0 →
          v = if (bigint_iter g bs k).1.2 then ((bigint_iter g bs k).1.1 : Int)
              else -((bigint_iter g bs k).1.1 : Int)) ∧
        v.natAbs = (bigint_iter g bs k).1.1 ∧ g' = (bigint_iter g bs k).2 := by
  intro fuel
  induction fuel with
  | zero => intro g v g' h; simp [random_bigint] at h
  | succ fuel ih =>
      intro g v g' h
      simp only [random_bigint] at h
      by_cases hm : (random_biguint g bs).1 = 0
      · rw [if_pos hm] at h
        by_cases hq : ((random_biguint g bs).2.flip).1 = true
        · rw [if_pos hq] at h
          obtain ⟨k, hk, hrej, hz, hnz, habs, hst⟩ := ih _ v g' h
          refine ⟨k + 1, by omega, ?_, ?_, ?_, ?_, ?_⟩
          · intro j hj
            cases j with
            | zero =>
                show (bigint_draw g bs).1 = (0, true)
                simp [bigint_draw, hm, hq]
            | succ j =>
                rw [bigint_iter_succ]
                exact hrej j (by omega)
          · rw [bigint_iter_succ]; exact hz
          · rw [bigint_iter_succ]; exact hnz
          · rw [bigint_iter_succ]; exact habs
          · rw [bigint_iter_succ]; exact hst
        · rw [if_neg hq] at h
          injection h with h2
          have hv : (0 : Int) = v := congrArg Prod.fst h2
          have hg : ((random_biguint g bs).2.flip).2 = g' := congrArg Prod.snd h2
          refine ⟨0, Nat.succ_pos _, fun j hj => absurd hj (Nat.not_lt_zero j), ?_, ?_, ?_, ?_⟩
          · intro _
            constructor
            · show ((random_biguint g bs).2.flip).1 = false
              simpa using hq
            · omega
          · intro hne
            exact absurd hm hne
          · rw [← hv]
            show (0 : Int).natAbs = (random_biguint g bs).1
            simp [hm]
          · rw [← hg]; rfl
      · rw [if_neg hm] at h
        injection h with h2
        have hv : (if ((random_biguint g bs).2.flip).1 then ((random_biguint g bs).1 : Int)
            else -((random_biguint g bs).1 : Int)) = v := congrArg Prod.fst h2
        have hg : ((random_biguint g bs).2.flip).2 = g' := congrArg Prod.snd h2
        refine ⟨0, Nat.succ_pos _, fun j hj => absurd hj (Nat.not_lt_zero j), ?_, ?_, ?_, ?_⟩
        · intro h0; exact absurd h0 hm
        · intro _; exact hv.symm
        · rw [← hv]
          have hiter : (bigint_iter g bs 0).1.1 = (random_biguint g bs).1 := rfl
          rw [hiter]
          by_cases hq : ((random_biguint g bs).2.flip).1 = true
          · simp [hq]
          · simp [hq]
        · rw [← hg]; rfl

theorem random_bits_length (g : Rng) (len rem : Nat) (h : 0 < rem → 0 < len) :
    (random_bits g len rem).1.length = len := by
  by_cases h0 : 0 < rem
  · simp only [random_bits, if_pos h0, List.length_append, List.length_dropLast,
      fill_length, List.length_cons, List.length_nil]
    have := h h0
    omega
  · simp [random_bits, h0, fill_length]

/-! Claim theorems. -/

/-- C1: for every non-zero bound, `random_biguint_below` repeatedly draws
candidate magnitudes of bit size `bits bound` and returns the first candidate
strictly less than the bound; every returned value lies in `[0, bound)`, and
for bound 1 the returned value is always 0. -/
theorem random_biguint_below_spec (fuel : Nat) (g : Rng) (bound n : Nat) (g' : Rng)
    (hbound : bound ≠ 0) (h : random_biguint_below fuel g bound = .ok (n, g')) :
    n < bound ∧ (bound = 1 → n = 0) ∧
      ∃ k, k < fuel ∧ (∀ j, j < k → ¬ (below_candidate g (bits bound) j).1 < bound) ∧
        below_candidate g (bits bound) k = (n, g') := by
  rw [random_biguint_below, if_neg hbound] at h
  have h1 := below_loop_lt bound (bits bound) fuel g n g' h
  exact ⟨h1, fun hb => by omega, below_loop_first bound (bits bound) fuel g n g' h⟩

theorem random_biguint_below_spec_witness : (0 : Nat) < 1 :=
  (random_biguint_below_spec 1 g0 1 0 g1 (by decide) rfl).1

/-- C2: for `lbound < ubound`, `random_biguint_range` returns
`random_biguint_below ubound` when `lbound` is zero and otherwise
`lbound + random_biguint_below (ubound - lbound)`; every returned value lies in
`[lbound, ubound)`. -/
theorem random_biguint_range_spec (fuel : Nat) (g : Rng) (lbound ubound : Nat)
    (h : lbound < ubound) :
    (lbound = 0 → random_biguint_range fuel g lbound ubound =
      random_biguint_below fuel g ubound) ∧
    (lbound ≠ 0 → random_biguint_range fuel g lbound ubound =
      SR.map (fun p => (lbound + p.1, p.2)) (random_biguint_below fuel g (ubound - lbound))) ∧
    ∀ n g', random_biguint_range fuel g lbound ubound = .ok (n, g') →
      lbound ≤ n ∧ n < ubound := by
  refine ⟨fun h0 => by rw [random_biguint_range, if_pos h, if_pos h0],
    fun h0 => by rw [random_biguint_range, if_pos h, if_neg h0], ?_⟩
  intro n g' hok
  rw [random_biguint_range, if_pos h] at hok
  by_cases h0 : lbound = 0
  · rw [if_pos h0] at hok
    have hlt := below_lt hok
    omega
  · rw [if_neg h0, SR.map_eq_ok] at hok
    obtain ⟨⟨m, gm⟩, hbelow, hpair⟩ := hok
    have hm := below_lt hbelow
    have hn : n = lbound + m := congrArg Prod.fst hpair
    omega

theorem random_biguint_range_spec_witness : 1 ≤ 1 ∧ 1 < 2 :=
  (random_biguint_range_spec 1 g0 1 2 (by decide)).2.2 1 g1 rfl

/-- C3: for `lbound < ubound`, `random_bigint_range` reduces to a
magnitude-bounded draw in each of its three cases and every returned value lies
in `[lbound, ubound)`. -/
theorem random_bigint_range_spec (fuel : Nat) (g : Rng) (lbound ubound : Int)
    (h : lbound < ubound) :
    (lbound = 0 → random_bigint_range fuel g lbound ubound =
      SR.map (fun p => ((p.1 : Int), p.2)) (random_biguint_below fuel g ubound.natAbs)) ∧
    (lbound ≠ 0 → ubound = 0 → random_bigint_range fuel g lbound ubound =
      SR.map (fun p => (lbound + (p.1 : Int), p.2))
        (random_biguint_below fuel g lbound.natAbs)) ∧
    (lbound ≠ 0 → ubound ≠ 0 → random_bigint_range fuel g lbound ubound =
      SR.map (fun p => (lbound + (p.1 : Int), p.2))
        (random_biguint_below fuel g (ubound - lbound).natAbs)) ∧
    ∀ v g', random_bigint_range fuel g lbound ubound = .ok (v, g') →
      lbound ≤ v ∧ v < ubound := by
  refine ⟨fun h0 => by rw [random_bigint_range, if_pos h, if_pos h0],
    fun h0 hu => by rw [random_bigint_range, if_pos h, if_neg h0, if_pos hu],
    fun h0 hu => by rw [random_bigint_range, if_pos h, if_neg h0, if_neg hu], ?_⟩
  intro v g' hok
  rw [random_bigint_range, if_pos h] at hok
  by_cases h0 : lbound = 0
  · rw [if_pos h0, SR.map_eq_ok] at hok
    obtain ⟨⟨m, gm⟩, hbelow, hpair⟩ := hok
    have hm := below_lt hbelow
    have hv : v = (m : Int) := congrArg Prod.fst hpair
    subst h0
    omega
  · rw [if_neg h0] at hok
    by_cases hu : ubound = 0
    · rw [if_pos hu, SR.map_eq_ok] at hok
      obtain ⟨⟨m, gm⟩, hbelow, hpair⟩ := hok
      have hm := below_lt hbelow
      have hv : v = lbound + (m : Int) := congrArg Prod.fst hpair
      omega
    · rw [if_neg hu, SR.map_eq_ok] at hok
      obtain ⟨⟨m, gm⟩, hbelow, hpair⟩ := hok
      have hm := below_lt hbelow
      have hv : v = lbound + (m : Int) := congrArg Prod.fst hpair
      omega

theorem random_bigint_range_spec_witness : (-1 : Int) ≤ -1 ∧ (-1 : Int) < 1 :=
  (random_bigint_range_spec 1 g0 (-1) 1 (by decide)).2.2.2 (-1) g1 rfl

/-- C4: for every bit size `n`, `random_biguint` allocates `ceil(n / 32)`
generation words, masks the top word so that every bit at or above position `n`
is zero (the value is below `2 ^ n`, equivalently its bit length is at most
`n`), and `n = 0` always yields the zero magnitude. -/
theorem random_biguint_bits_spec (g : Rng) (n : Nat) :
    (random_biguint_data g n).1.length = (n + 31) / 32 ∧
    (random_biguint g n).1 < 2 ^ n ∧
    bits (random_biguint g n).1 ≤ n ∧
    (random_biguint g 0).1 = 0 := by
  refine ⟨?_, random_biguint_lt g n, (bits_le_iff _ _).mpr (random_biguint_lt g n), ?_⟩
  · simp only [random_biguint_data]
    rw [random_bits_length _ _ _ (by intro hr; rw [if_pos hr]; omega)]
    split_ifs with hr <;> omega
  · have h := random_biguint_lt g 0
    rw [pow_zero] at h
    omega

/-- C5: for every bit size and every fixed entropy stream, the 64-bit digit
path of `random_biguint` produces the same value and the same advanced source
as the 32-bit digit path: the native-word sequence read base `2^64` equals the
generation-word sequence read base `2^32`. -/
theorem random_biguint64_eq_random_biguint (g : Rng) (n : Nat) :
    random_biguint64 g n = random_biguint g n := by
  simp only [random_biguint64, random_biguint, random_biguint_data, biguint_from_vec,
    biguint_from_vec64]
  rw [pack64_val, valU32_append, valU32_replicate_zero]
  simp

/-- C6: `random_bigint` draws a magnitude and then a sign: a non-zero magnitude
takes its sign from one coin flip, a zero magnitude either retries the whole
draw or finalises as zero according to a fresh coin flip; the result is the
first finalised value, its magnitude is below `2 ^ bit_size`, and it is zero
exactly when the finalising drawn magnitude is zero. -/
theorem random_bigint_spec (fuel : Nat) (g : Rng) (bit_size : Nat) (v : Int) (g' : Rng)
    (h : random_bigint fuel g bit_size = .ok (v, g')) :
    v.natAbs < 2 ^ bit_size ∧
    ∃ k, k < fuel ∧ (∀ j, j < k → (bigint_iter g bit_size j).1 = (0, true)) ∧
      v.natAbs = (bigint_iter g bit_size k).1.1 ∧
      (v = 0 ↔ (bigint_iter g bit_size k).1.1 = 0) ∧
      ((bigint_iter g bit_size k).1.1 = 0 →
        (bigint_iter g bit_size k).1.2 = false ∧ v = 0) ∧
      ((bigint_iter g bit_size k).1.1 ≠ 0 →
        v = if (bigint_iter g bit_size k).1.2 then ((bigint_iter g bit_size k).1.1 : Int)
            else -((bigint_iter g bit_size k).1.1 : Int)) ∧
      g' = (bigint_iter g bit_size k).2 := by
  obtain ⟨k, hk, hrej, hz, hnz, habs, hst⟩ := random_bigint_loop bit_size fuel g v g' h
  refine ⟨?_, k, hk, hrej, habs, ?_, hz, hnz, hst⟩
  · rw [habs]
    exact bigint_iter_fst_lt g bit_size k
  · rw [← habs]
    exact Int.natAbs_eq_zero.symm

theorem random_bigint_spec_witness : (0 : Int).natAbs < 2 ^ 1 :=
  (random_bigint_spec 1 g0 1 0 g11 rfl).1

/-- C7: for both adapters, `new` reports the empty-range error exactly when
`low ≥ high`, and `new_inclusive` reports it exactly when `low > high`,
otherwise delegating to `new (low, high + 1)`; in particular
`new_inclusive 5 5` succeeds and the resulting sampler always draws 5. -/
theorem uniform_adapters_spec (low high : Nat) (ilow ihigh : Int) (fuel : Nat) (g : Rng) :
    (UniformBigUint.new low high = .error .emptyRange ↔ ¬ low < high) ∧
    (low ≤ high → UniformBigUint.new_inclusive low high = UniformBigUint.new low (high + 1)) ∧
    (UniformBigUint.new_inclusive low high = .error .emptyRange ↔ ¬ low ≤ high) ∧
    (UniformBigInt.new ilow ihigh = .error .emptyRange ↔ ¬ ilow < ihigh) ∧
    (ilow ≤ ihigh → UniformBigInt.new_inclusive ilow ihigh =
      UniformBigInt.new ilow (ihigh + 1)) ∧
    (UniformBigInt.new_inclusive ilow ihigh = .error .emptyRange ↔ ¬ ilow ≤ ihigh) ∧
    UniformBigUint.new_inclusive 5 5 = .ok { base := 5, len := 1 } ∧
    UniformBigInt.new_inclusive 5 5 = .ok { base := 5, len := 1 } ∧
    (∀ n g', UniformBigUint.sample { base := 5, len := 1 } fuel g = .ok (n, g') → n = 5) ∧
    (∀ v g', UniformBigInt.sample { base := 5, len := 1 } fuel g = .ok (v, g') → v = 5) := by
  refine ⟨?_, ?_, ?_, ?_, ?_, ?_, rfl, rfl, ?_, ?_⟩
  · rw [UniformBigUint.new]
    split_ifs with hlt <;> simp [hlt]
  · intro hle
    rw [UniformBigUint.new_inclusive, if_pos hle]
  · rw [UniformBigUint.new_inclusive]
    split_ifs with hle
    · rw [UniformBigUint.new, if_pos (by omega)]
      simp [hle]
    · simp [hle]
  · rw [UniformBigInt.new]
    split_ifs with hlt <;> simp [hlt]
  · intro hle
    rw [UniformBigInt.new_inclusive, if_pos hle]
  · rw [UniformBigInt.new_inclusive]
    split_ifs with hle
    · rw [UniformBigInt.new, if_pos (by omega)]
      simp [hle]
    · simp [hle]
  · intro n g' hs
    rw [UniformBigUint.sample, SR.map_eq_ok] at hs
    obtain ⟨⟨m, gm⟩, hbelow, hpair⟩ := hs
    have hm : m < 1 := below_lt hbelow
    have hn : n = 5 + m := congrArg Prod.fst hpair
    omega
  · intro v g' hs
    rw [UniformBigInt.sample, SR.map_eq_ok] at hs
    obtain ⟨⟨m, gm⟩, hbelow, hpair⟩ := hs
    have hm : m < 1 := below_lt hbelow
    have hv : v = (5 : Int) + (m : Int) := congrArg Prod.fst hpair
    omega

theorem uniform_adapters_spec_witness : (5 : Nat) = 5 ∧ (5 : Int) = 5 :=
  ⟨(uniform_adapters_spec 5 5 5 5 1 g0).2.2.2.2.2.2.2.2.1 5 g1 rfl,
   (uniform_adapters_spec 5 5 5 5 1 g0).2.2.2.2.2.2.2.2.2 5 g1 rfl⟩

/-- C8: a zero bound passed to `random_biguint_below`, or bounds with
`lbound ≥ ubound` passed to either range sampler, is a fatal assertion failure
(a panic), never a returned error value; under the documented preconditions the
assertion branch is unreachable. -/
theorem assert_panic_spec (fuel : Nat) (g : Rng) (bound lo hi : Nat) (ilo ihi : Int) :
    random_biguint_below fuel g 0 = .fatal ∧
    (bound ≠ 0 → random_biguint_below fuel g bound ≠ .fatal) ∧
    (¬ lo < hi → random_biguint_range fuel g lo hi = .fatal) ∧
    (lo < hi → random_biguint_range fuel g lo hi ≠ .fatal) ∧
    (¬ ilo < ihi → random_bigint_range fuel g ilo ihi = .fatal) ∧
    (ilo < ihi → random_bigint_range fuel g ilo ihi ≠ .fatal) := by
  refine ⟨by rw [random_biguint_below, if_pos rfl], fun hb => below_ne_fatal hb, ?_, ?_, ?_, ?_⟩
  · intro hlt
    rw [random_biguint_range, if_neg hlt]
  · intro hlt
    rw [random_biguint_range, if_pos hlt]
    by_cases h0 : lo = 0
    · rw [if_pos h0]
      exact below_ne_fatal (by omega)
    · rw [if_neg h0]
      exact SR.map_ne_fatal _ _ (below_ne_fatal (by omega))
  · intro hlt
    rw [random_bigint_range, if_neg hlt]
  · intro hlt
    rw [random_bigint_range, if_pos hlt]
    by_cases h0 : ilo = 0
    · rw [if_pos h0]
      exact SR.map_ne_fatal _ _ (below_ne_fatal (by omega))
    · rw [if_neg h0]
      by_cases hu : ihi = 0
      · rw [if_pos hu]
        exact SR.map_ne_fatal _ _ (below_ne_fatal (by omega))
      · rw [if_neg hu]
        exact SR.map_ne_fatal _ _ (below_ne_fatal (by omega))

theorem assert_panic_spec_witness :
    random_biguint_below 1 g0 0 = .fatal ∧
    random_biguint_below 1 g0 3 ≠ .fatal ∧
    random_biguint_range 1 g0 2 2 = .fatal ∧
    random_bigint_range 1 g0 1 1 = .fatal :=
  ⟨(assert_panic_spec 1 g0 3 2 2 1 1).1,
   (assert_panic_spec 1 g0 3 2 2 1 1).2.1 (by decide),
   (assert_panic_spec 1 g0 3 2 2 1 1).2.2.1 (by decide),
   (assert_panic_spec 1 g0 3 2 2 1 1).2.2.2.2.1 (by decide)⟩

/-- C9: every sampling operation is a deterministic function of its parameters
and the entropy source state: calls starting from identical source states
return identical results, with no hidden process-wide state. -/
theorem deterministic_spec (g₁ g₂ : Rng) (h : g₁ = g₂) :
    (∀ n, random_biguint g₁ n = random_biguint g₂ n) ∧
    (∀ fuel n, random_bigint fuel g₁ n = random_bigint fuel g₂ n) ∧
    (∀ fuel bound, random_biguint_below fuel g₁ bound = random_biguint_below fuel g₂ bound) ∧
    (∀ fuel lo hi, random_biguint_range fuel g₁ lo hi = random_biguint_range fuel g₂ lo hi) ∧
    ∀ fuel (ilo ihi : Int),
      random_bigint_range fuel g₁ ilo ihi = random_bigint_range fuel g₂ ilo ihi := by
  subst h
  exact ⟨fun _ => rfl, fun _ _ => rfl, fun _ _ => rfl, fun _ _ _ => rfl, fun _ _ _ => rfl⟩

theorem deterministic_spec_witness : random_biguint g0 5 = random_biguint g0 5 :=
  (deterministic_spec g0 g0 rfl).1 5

/-- C10: `sample_single` never returns the typed empty-range error even though
its return type is a Result: for `low < high` it returns Ok of the range
sampler's result, and for `low ≥ high` it panics via the range sampler's
assertion instead of returning Err. -/
theorem sample_single_spec (fuel : Nat) (g : Rng) (lo hi : Nat) (ilo ihi : Int) :
    (∀ e p, UniformBigUint.sample_single lo hi fuel g ≠ .ok (.error e, p)) ∧
    (lo < hi → UniformBigUint.sample_single lo hi fuel g =
      SR.map (fun p => (Except.ok p.1, p.2)) (random_biguint_range fuel g lo hi)) ∧
    (¬ lo < hi → UniformBigUint.sample_single lo hi fuel g = .fatal) ∧
    (∀ e p, UniformBigInt.sample_single ilo ihi fuel g ≠ .ok (.error e, p)) ∧
    (ilo < ihi → UniformBigInt.sample_single ilo ihi fuel g =
      SR.map (fun p => (Except.ok p.1, p.2)) (random_bigint_range fuel g ilo ihi)) ∧
    (¬ ilo < ihi → UniformBigInt.sample_single ilo ihi fuel g = .fatal) := by
  refine ⟨?_, fun _ => rfl, ?_, ?_, fun _ => rfl, ?_⟩
  · intro e p hok
    rw [UniformBigUint.sample_single, SR.map_eq_ok] at hok
    obtain ⟨⟨m, gm⟩, -, hpair⟩ := hok
    exact Except.noConfusion (congrArg Prod.fst hpair)
  · intro hlt
    rw [UniformBigUint.sample_single, random_biguint_range, if_neg hlt]
    rfl
  · intro e p hok
    rw [UniformBigInt.sample_single, SR.map_eq_ok] at hok
    obtain ⟨⟨m, gm⟩, -, hpair⟩ := hok
    exact Except.noConfusion (congrArg Prod.fst hpair)
  · intro hlt
    rw [UniformBigInt.sample_single, random_bigint_range, if_neg hlt]
    rfl

theorem sample_single_spec_witness :
    UniformBigUint.sample_single 2 2 1 g0 = .fatal ∧
    UniformBigInt.sample_single 2 2 1 g0 = .fatal :=
  ⟨(sample_single_spec 1 g0 2 2 2 2).2.2.1 (by decide),
   (sample_single_spec 1 g0 2 2 2 2).2.2.2.2.2 (by decide)⟩
